import Mathlib

/-!
Shallow embedding of the Hyperledger Fabric Vickrey auction chaincode
(`chaincode-go`, final revision). Client identities are the raw DER bytes of
the submitting client's X.509 certificate, modelled as `List Nat`; the
contract compares them by exact equality (`reflect.DeepEqual`), and the
PEM/DER conversion used as a map key in `EndAuction` is a bijection on DER
byte strings, so deduplication is performed on the DER bytes directly.
The SHAKE256 extendable-output function is an external library primitive and
is modelled as an arbitrary function from byte strings to byte strings,
passed as a parameter; `hashBid` feeds it the concatenation of the
certificate bytes, the 8-byte big-endian price and the salt, exactly as the
Go code writes these three segments into the SHAKE state in order.
`EndAuction` converts a Go map to a slice (unspecified iteration order) and
sorts it with the non-stable `sort.Slice`; both sources of arrangement
nondeterminism are modelled by quantifying over every list `pairs` that is a
permutation of the deduplicated entries and is sorted by non-increasing
price.  The `crypto/rand` draw `rand.Int(rand.Reader, numberOfCandidates)`
is modelled by the parameter `randIdx`.
-/

namespace FabricAuction

/-- Auction status enum: `Open`, `Closed`, `Ended` (in this `iota` order). -/
inductive AuctionStatus where
  | Open
  | Closed
  | Ended
deriving DecidableEq, Repr

/-- A bid record: buyer certificate (DER bytes), revealed price (`0` while
hidden) and the 64-byte hidden commitment. -/
structure Bid where
  buyer : List Nat
  bidPrice : Nat
  hiddenCommit : List Nat
deriving DecidableEq, Repr

/-- The auction entity stored in the world state. -/
structure Auction where
  name : String
  seller : List Nat
  status : AuctionStatus
  directBuyPrice : Nat
  bids : List Bid
  winner : Option (List Nat)
  hammerPrice : Nat
deriving DecidableEq, Repr

/-- The result part of the auction summary event. -/
structure AuctionResult where
  winner : Option (List Nat)
  directBuy : Bool
  hammerPrice : Nat
deriving DecidableEq, Repr

/-- Big-endian encoding of a price as a fixed 8-byte sequence, as produced by
`binary.BigEndian.PutUint64` (the value is reduced modulo `2^64`). -/
def priceBE8 (p : Nat) : List Nat :=
  [p / 2 ^ 56 % 256, p / 2 ^ 48 % 256, p / 2 ^ 40 % 256, p / 2 ^ 32 % 256,
   p / 2 ^ 24 % 256, p / 2 ^ 16 % 256, p / 2 ^ 8 % 256, p % 256]

/-- `hashBid` from the chaincode: the 64-byte SHAKE256 output over the
client certificate bytes, the big-endian price bytes and the salt, written
in this order.  `shake` abstracts the SHAKE256 primitive. -/
def hashBid (shake : List Nat → List Nat) (clientCert : List Nat)
    (bidPrice : Nat) (salt : List Nat) : List Nat :=
  shake (clientCert ++ priceBE8 bidPrice ++ salt)

/-- Lookup in the association list modelling the Go `map[string]uint64`
keyed by the buyer certificate. -/
def lookupBuyer (m : List (List Nat × Nat)) (b : List Nat) : Option Nat :=
  match m with
  | [] => none
  | kv :: rest => if kv.1 = b then some kv.2 else lookupBuyer rest b

/-- Overwrite the value stored for key `b` in the association list. -/
def setBuyer (m : List (List Nat × Nat)) (b : List Nat) (p : Nat) :
    List (List Nat × Nat) :=
  match m with
  | [] => []
  | kv :: rest => if kv.1 = b then (b, p) :: rest else kv :: setBuyer rest b p

/-- One step of the map-building loop of `EndAuction`:
`if !exists || bid.BidPrice > prevBid { buyerToBid[key] = bid.BidPrice }`. -/
def insertBid (m : List (List Nat × Nat)) (b : List Nat) (p : Nat) :
    List (List Nat × Nat) :=
  match lookupBuyer m b with
  | none => m ++ [(b, p)]
  | some prev => if p > prev then setBuyer m b p else m

/-- The Go map from buyer to their highest revealed bid, built by folding the
bid list in order (keys listed in first-insertion order; the map's actual
iteration order is unspecified and is handled by `admissibleSort`). -/
def buyerToBid (bids : List Bid) : List (List Nat × Nat) :=
  bids.foldl (fun m bid => insertBid m bid.buyer bid.bidPrice) []

/-- The deduplicated `(BidPrice, Buyer)` entries of the map, one per distinct
bidder, holding that bidder's maximum revealed price. -/
def entriesOf (bids : List Bid) : List (Nat × List Nat) :=
  (buyerToBid bids).map (fun kv => (kv.2, kv.1))

/-- Sorted by non-increasing price: the postcondition of the non-stable
`sort.Slice(bidPriceToBuyer, less)` with `less i j = price_i > price_j`. -/
def sortedDesc (pairs : List (Nat × List Nat)) : Prop :=
  List.Pairwise (fun x y => y.1 ≤ x.1) pairs

instance (pairs : List (Nat × List Nat)) : Decidable (sortedDesc pairs) :=
  List.instDecidablePairwise pairs

/-- `pairs` is a possible value of the sorted slice `bidPriceToBuyer` in
`EndAuction`: a permutation of the map entries (the map iteration order is
unspecified) that is sorted by non-increasing price (the sort is not
stable, so ties may appear in any order). -/
def admissibleSort (bids : List Bid) (pairs : List (Nat × List Nat)) : Prop :=
  pairs.Perm (entriesOf bids) ∧ sortedDesc pairs

instance (bids : List Bid) (pairs : List (Nat × List Nat)) :
    Decidable (admissibleSort bids pairs) :=
  instDecidableAnd

/-- Number of bidders tied at the highest price: the loop counting the
leading entries whose price is not below `bidPriceToBuyer[0].BidPrice`. -/
def numberOfCandidates (pairs : List (Nat × List Nat)) : Nat :=
  match pairs with
  | [] => 0
  | p0 :: _ => (pairs.takeWhile (fun x => decide (p0.1 ≤ x.1))).length

/-- `CloseAuction` from the chaincode: seller-only; no-op unless the status
is still `Open`, in which case the status becomes `Closed`. -/
def Contract.CloseAuction (clientID : List Nat) (auction : Auction) :
    Except String Auction :=
  if auction.seller ≠ clientID then
    .error "only the auction seller can update the auction status"
  else if auction.status ≠ .Open then
    .ok auction
  else
    .ok { auction with status := .Closed }

/-- `Bid` from the chaincode: the hex-decoded commitment must be exactly 64
bytes and the auction must still be `Open`; a new hidden bid record with
`bidPrice = 0` is appended. -/
def Contract.Bid (clientID : List Nat) (auction : Auction)
    (hiddenCommit : List Nat) : Except String Auction :=
  if hiddenCommit.length ≠ 64 then
    .error "hiddenCommit is not 512 bit long"
  else if auction.status ≠ .Open then
    .error "auction is closed"
  else
    .ok { auction with
          bids := auction.bids ++ [{ buyer := clientID, bidPrice := 0,
                                     hiddenCommit := hiddenCommit }] }

/-- `OpenBid` from the chaincode: rejects a zero price and a salt shorter
than 64 bytes; otherwise recomputes the commitment digest and sets
`bidPrice` on every still-hidden bid of the caller whose stored commitment
equals the digest, succeeding even when nothing matches. -/
def Contract.OpenBid (shake : List Nat → List Nat) (clientID : List Nat)
    (auction : Auction) (bidPrice : Nat) (salt : List Nat) :
    Except String Auction :=
  if bidPrice = 0 then
    .error "bid price cannot be zero"
  else if salt.length < 64 then
    .error "salt should be at least 64 bytes long"
  else
    let bidHash := hashBid shake clientID bidPrice salt
    .ok { auction with
          bids := auction.bids.map (fun bid =>
            if bid.buyer = clientID ∧ bid.bidPrice = 0 ∧
                bid.hiddenCommit = bidHash then
              { bid with bidPrice := bidPrice }
            else bid) }

/-- `EndAuction` from the chaincode: seller-only; silent no-op when already
`Ended`; fails while any bid is unrevealed; otherwise deduplicates the bids
per buyer, sorts by descending price (`pairs`, see `admissibleSort`), takes
`hammerPrice` from the second entry when there are at least two distinct
bidders, and picks the winner at the random index `randIdx` drawn in
`[0, numberOfCandidates)`. -/
def Contract.EndAuction (clientID : List Nat) (auction : Auction)
    (pairs : List (Nat × List Nat)) (randIdx : Nat) :
    Except String (Auction × Option AuctionResult) :=
  if auction.seller ≠ clientID then
    .error "only the auction seller can end the auction"
  else if auction.status = .Ended then
    .ok (auction, none)
  else if auction.bids.any (fun bid => decide (bid.bidPrice = 0)) then
    .error "cannot end auction, because not all bids are revealed yet"
  else if pairs.isEmpty then
    .ok ({ auction with hammerPrice := 0, winner := none, status := .Ended },
         some { winner := none, directBuy := false, hammerPrice := 0 })
  else
    let highestPrice := (pairs.headD (0, [])).1
    let hammerPrice :=
      if 1 < pairs.length then (pairs.getD 1 (0, [])).1 else highestPrice
    let winner := (pairs.getD randIdx (0, [])).2
    .ok ({ auction with
            hammerPrice := hammerPrice
            winner := some winner
            status := .Ended },
         some { winner := some winner
                directBuy := false
                hammerPrice := hammerPrice })

/-- `DirectBuy` from the chaincode: requires the auction not to be `Ended`,
direct buy to be enabled, and the payment to reach `directBuyPrice`; ends
the auction with the caller as winner at the paid price. -/
def Contract.DirectBuy (clientID : List Nat) (auction : Auction)
    (price : Nat) : Except String (Auction × AuctionResult) :=
  if auction.status = .Ended then
    .error "auction has already ended"
  else if auction.directBuyPrice = 0 then
    .error "direct buy is disabled for this auction"
  else if price < auction.directBuyPrice then
    .error "payment amount not sufficient for a direct buy"
  else
    .ok ({ auction with
            hammerPrice := price
            winner := some clientID
            status := .Ended },
         { winner := some clientID
           directBuy := true
           hammerPrice := price })

/-- The bidder and seller operations that touch an existing auction, with
the oracle inputs (`shake`, sort arrangement, random index) as data. -/
inductive Op where
  | bid (hiddenCommit : List Nat)
  | openBid (shake : List Nat → List Nat) (bidPrice : Nat) (salt : List Nat)
  | closeAuction
  | endAuction (pairs : List (Nat × List Nat)) (randIdx : Nat)
  | directBuy (price : Nat)

/-- Run one operation on an auction, keeping the resulting auction state. -/
def applyOp (clientID : List Nat) (auction : Auction) : Op → Except String Auction
  | .bid c => Contract.Bid clientID auction c
  | .openBid shake p s => Contract.OpenBid shake clientID auction p s
  | .closeAuction => Contract.CloseAuction clientID auction
  | .endAuction pairs r => (Contract.EndAuction clientID auction pairs r).map Prod.fst
  | .directBuy p => (Contract.DirectBuy clientID auction p).map Prod.fst

/-- The old bid list is preserved entry by entry: nothing is removed, the
buyer and commitment of every existing record are unchanged, a revealed
price is never overwritten, and any appended record is still hidden. -/
def bidsPreserved (old nu : List Bid) : Prop :=
  old.length ≤ nu.length ∧
  (∀ i : Nat, ∀ ob nb, old.get? i = some ob → nu.get? i = some nb →
    nb.buyer = ob.buyer ∧ nb.hiddenCommit = ob.hiddenCommit ∧
    (ob.bidPrice ≠ 0 → nb.bidPrice = ob.bidPrice)) ∧
  (∀ i : Nat, old.length ≤ i → ∀ nb, nu.get? i = some nb → nb.bidPrice = 0)

/-- Maximum of a list of prices, with `0` for the empty list. -/
def maxD (l : List Nat) : Nat := l.foldr max 0

/-- The highest per-bidder maximum price of an auction's bid list. -/
def maxPriceOf (bids : List Bid) : Nat := maxD ((entriesOf bids).map Prod.fst)

theorem le_maxD {l : List Nat} {a : Nat} (h : a ∈ l) : a ≤ maxD l := by
  induction l with
  | nil => cases h
  | cons x xs ih =>
    rcases List.mem_cons.mp h with h1 | h2
    · simp [maxD, h1, le_max_iff]
    · simp only [maxD, List.foldr_cons]
      exact le_max_of_le_right (ih h2)

theorem maxD_le {l : List Nat} {b : Nat} (h : ∀ a ∈ l, a ≤ b) : maxD l ≤ b := by
  induction l with
  | nil => exact Nat.zero_le b
  | cons x xs ih =>
    simp only [maxD, List.foldr_cons]
    exact max_le (h x (List.mem_cons_self x xs))
      (ih fun a ha => h a (List.mem_cons_of_mem x ha))

theorem maxD_perm {l l' : List Nat} (h : l.Perm l') : maxD l = maxD l' :=
  le_antisymm (maxD_le fun a ha => le_maxD (h.mem_iff.mp ha))
    (maxD_le fun a ha => le_maxD (h.mem_iff.mpr ha))

theorem maxD_cons_of_le {x : Nat} {xs : List Nat} (h : ∀ a ∈ xs, a ≤ x) :
    maxD (x :: xs) = x := by
  simp only [maxD, List.foldr_cons]
  exact max_eq_left (maxD_le h)

/-- A sorted-descending list's head bounds every element. -/
theorem sortedDesc_head_le {p0 : Nat × List Nat} {tl : List (Nat × List Nat)}
    (h : sortedDesc (p0 :: tl)) : ∀ x ∈ p0 :: tl, x.1 ≤ p0.1 := by
  intro x hx
  rcases List.mem_cons.mp hx with h1 | h2
  · exact le_of_eq (congrArg Prod.fst h1)
  · exact (List.pairwise_cons.mp h).1 x h2

/-- An element read at a position inside `takeWhile` is the element of the
underlying list at the same position and satisfies the predicate. -/
theorem takeWhile_get? {α : Type} (f : α → Bool) :
    ∀ (l : List α) (i : Nat) (x : α),
      (l.takeWhile f).get? i = some x → l.get? i = some x ∧ f x = true := by
  intro l
  induction l with
  | nil => intro i x h; simp [List.takeWhile] at h
  | cons a tl ih =>
    intro i x h
    by_cases hfa : f a
    · rw [List.takeWhile_cons_of_pos hfa] at h
      cases i with
      | zero =>
        simp only [List.get?] at h ⊢
        cases h
        exact ⟨rfl, hfa⟩
      | succ j =>
        simp only [List.get?] at h ⊢
        exact ih j x h
    · rw [List.takeWhile_cons_of_neg hfa] at h
      simp at h

theorem bidsPreserved_refl (l : List Bid) : bidsPreserved l l := by
  refine ⟨le_refl _, ?_, ?_⟩
  · intro i ob nb h1 h2
    rw [h1] at h2
    cases h2
    exact ⟨rfl, rfl, fun _ => rfl⟩
  · intro i hi nb h
    rw [List.get?_eq_none.mpr hi] at h
    cases h

/-- C4: when the seller calls `EndAuction` on a not-yet-ended auction that
still contains a hidden bid (`bidPrice = 0`), the call fails with an error
and no state is written (an error aborts the transaction before
`putAuction`). -/
theorem C4_endAuction_unrevealed_fails (clientID : List Nat) (a : Auction)
    (pairs : List (Nat × List Nat)) (randIdx : Nat)
    (hSeller : a.seller = clientID) (hSt : a.status ≠ .Ended)
    (hHidden : ∃ bid ∈ a.bids, bid.bidPrice = 0) :
    Contract.EndAuction clientID a pairs randIdx =
      .error "cannot end auction, because not all bids are revealed yet" := by
  have hAny : a.bids.any (fun bid => decide (bid.bidPrice = 0)) = true := by
    rcases hHidden with ⟨bid, hmem, hzero⟩
    exact List.any_eq_true.mpr ⟨bid, hmem, by simp [hzero]⟩
  simp [Contract.EndAuction, hSeller, hSt, hAny]

/-- C5: `DirectBuy` succeeds exactly when the auction is not ended, direct
buy is enabled and the payment reaches `directBuyPrice`; it then ends the
auction with the caller as winner at the paid price and `directBuy = true`
in the emitted result, regardless of the (possibly unrevealed) bid list;
in all other cases it fails with an error. -/
theorem C5_directBuy (clientID : List Nat) (a : Auction) (price : Nat) :
    (a.status ≠ .Ended → a.directBuyPrice ≠ 0 → a.directBuyPrice ≤ price →
      Contract.DirectBuy clientID a price =
        .ok ({ a with
                hammerPrice := price
                winner := some clientID
                status := .Ended },
             { winner := some clientID
               directBuy := true
               hammerPrice := price })) ∧
    (a.status = .Ended ∨ a.directBuyPrice = 0 ∨ price < a.directBuyPrice →
      ∃ e, Contract.DirectBuy clientID a price = .error e) := by
  constructor
  · intro h1 h2 h3
    simp [Contract.DirectBuy, h1, h2, not_lt.mpr h3]
  · intro h
    rcases h with h | h | h
    · exact ⟨"auction has already ended", by simp [Contract.DirectBuy, h]⟩
    · by_cases hEnd : a.status = .Ended
      · exact ⟨"auction has already ended", by simp [Contract.DirectBuy, hEnd]⟩
      · exact ⟨"direct buy is disabled for this auction",
          by simp [Contract.DirectBuy, hEnd, h]⟩
    · by_cases hEnd : a.status = .Ended
      · exact ⟨"auction has already ended", by simp [Contract.DirectBuy, hEnd]⟩
      · by_cases hDis : a.directBuyPrice = 0
        · exact ⟨"direct buy is disabled for this auction",
            by simp [Contract.DirectBuy, hEnd, hDis]⟩
        · exact ⟨"payment amount not sufficient for a direct buy",
            by simp [Contract.DirectBuy, hEnd, hDis, h]⟩

/-- C8: the seller ending a not-yet-ended auction with an empty bid list
succeeds; the status becomes `Ended`, the winner stays absent and the
hammer price is `0`. -/
theorem C8_endAuction_no_bids (clientID : List Nat) (a : Auction)
    (pairs : List (Nat × List Nat)) (randIdx : Nat)
    (hSeller : a.seller = clientID) (hSt : a.status ≠ .Ended)
    (hBids : a.bids = []) (hAdm : admissibleSort a.bids pairs) :
    Contract.EndAuction clientID a pairs randIdx =
      .ok ({ a with
              hammerPrice := 0
              winner := none
              status := .Ended },
           some { winner := none
                  directBuy := false
                  hammerPrice := 0 }) := by
  have hPairs : pairs = [] := by
    have h := hAdm.1
    rw [hBids] at h
    exact h.eq_nil
  simp [Contract.EndAuction, hSeller, hSt, hBids, hPairs]

/-- C6: `OpenBid` rejects a zero price and an undersized salt; with valid
arguments it succeeds, changes nothing but the bid list, rewrites every
entry by setting `bidPrice = price` exactly on the caller's still-hidden
bids whose commitment equals the recomputed digest, and is a silent no-op
(success, state unchanged) when no entry matches. -/
theorem C6_openBid_validation (shake : List Nat → List Nat)
    (clientID : List Nat) (a : Auction) (price : Nat) (salt : List Nat) :
    (price = 0 ∨ salt.length < 64 →
      ∃ e, Contract.OpenBid shake clientID a price salt = .error e) ∧
    (price ≠ 0 → 64 ≤ salt.length →
      ∃ a', Contract.OpenBid shake clientID a price salt = .ok a' ∧
        a'.name = a.name ∧ a'.seller = a.seller ∧ a'.status = a.status ∧
        a'.directBuyPrice = a.directBuyPrice ∧ a'.winner = a.winner ∧
        a'.hammerPrice = a.hammerPrice ∧
        a'.bids.length = a.bids.length ∧
        (∀ i bid, a.bids.get? i = some bid →
          a'.bids.get? i = some (
            if bid.buyer = clientID ∧ bid.bidPrice = 0 ∧
                bid.hiddenCommit = hashBid shake clientID price salt then
              { bid with bidPrice := price }
            else bid)) ∧
        ((∀ bid ∈ a.bids, ¬(bid.buyer = clientID ∧ bid.bidPrice = 0 ∧
            bid.hiddenCommit = hashBid shake clientID price salt)) →
          a' = a)) := by
  constructor
  · intro h
    by_cases hp : price = 0
    · exact ⟨"bid price cannot be zero", by simp [Contract.OpenBid, hp]⟩
    · have hs : salt.length < 64 := by
        rcases h with h | h
        · exact absurd h hp
        · exact h
      exact ⟨"salt should be at least 64 bytes long",
        by simp [Contract.OpenBid, hp, hs]⟩
  · intro hp hs
    have hEq : Contract.OpenBid shake clientID a price salt =
        .ok { a with
              bids := a.bids.map (fun bid =>
                if bid.buyer = clientID ∧ bid.bidPrice = 0 ∧
                    bid.hiddenCommit = hashBid shake clientID price salt then
                  { bid with bidPrice := price }
                else bid) } := by
      simp [Contract.OpenBid, hp, not_lt.mpr hs]
    refine ⟨_, hEq, rfl, rfl, rfl, rfl, rfl, rfl, List.length_map _ _, ?_, ?_⟩
    · intro i bid hget
      simp only [List.get?_map, hget, Option.map_some']
    · intro hNoMatch
      have hmap : a.bids.map (fun bid =>
          if bid.buyer = clientID ∧ bid.bidPrice = 0 ∧
              bid.hiddenCommit = hashBid shake clientID price salt then
            { bid with bidPrice := price }
          else bid) = a.bids := by
        have h1 : ∀ bid ∈ a.bids,
            (if bid.buyer = clientID ∧ bid.bidPrice = 0 ∧
                bid.hiddenCommit = hashBid shake clientID price salt then
              { bid with bidPrice := price }
            else bid) = bid := by
          intro bid hbid
          exact if_neg (hNoMatch bid hbid)
        calc a.bids.map _ = a.bids.map id := List.map_congr_left h1
        _ = a.bids := List.map_id a.bids
      rw [hmap]

/-- C7: the commitment digest is a function of the identity, the price and
the salt, so a hidden bid whose commitment was produced by `hashBid` on the
caller's certificate is revealed by a later `OpenBid` from the same caller
supplying the same price and salt. -/
theorem C7_commit_reveal_roundtrip (shake : List Nat → List Nat)
    (cert : List Nat) (a : Auction) (price : Nat) (salt : List Nat)
    (i : Nat) (bid : Bid)
    (hp : price ≠ 0) (hs : 64 ≤ salt.length)
    (hget : a.bids.get? i = some bid)
    (hbuyer : bid.buyer = cert) (hhidden : bid.bidPrice = 0)
    (hcommit : bid.hiddenCommit = hashBid shake cert price salt) :
    ∃ a', Contract.OpenBid shake cert a price salt = .ok a' ∧
      a'.bids.get? i = some { bid with bidPrice := price } := by
  have hEq : Contract.OpenBid shake cert a price salt =
      .ok { a with
            bids := a.bids.map (fun b =>
              if b.buyer = cert ∧ b.bidPrice = 0 ∧
                  b.hiddenCommit = hashBid shake cert price salt then
                { b with bidPrice := price }
              else b) } := by
    simp [Contract.OpenBid, hp, not_lt.mpr hs]
  refine ⟨_, hEq, ?_⟩
  simp only [List.get?_map, hget, Option.map_some']
  rw [if_pos ⟨hbuyer, hhidden, hcommit⟩]

/-- C9: `OpenBid` never checks the auction status: with a nonzero price and
a salt of at least 64 bytes it succeeds on an auction in any status (Open,
Closed or Ended alike), and a matching hidden bid of the caller is revealed
in every status. -/
theorem C9_openBid_ignores_status (shake : List Nat → List Nat)
    (clientID : List Nat) (a : Auction) (price : Nat) (salt : List Nat)
    (hp : price ≠ 0) (hs : 64 ≤ salt.length) :
    ∀ st : AuctionStatus, ∃ a',
      Contract.OpenBid shake clientID { a with status := st } price salt =
        .ok a' ∧
      a'.status = st ∧
      ∀ i bid, a.bids.get? i = some bid → bid.buyer = clientID →
        bid.bidPrice = 0 →
        bid.hiddenCommit = hashBid shake clientID price salt →
        a'.bids.get? i = some { bid with bidPrice := price } := by
  intro st
  have hEq : Contract.OpenBid shake clientID { a with status := st } price salt =
      .ok { a with
            status := st
            bids := a.bids.map (fun b =>
              if b.buyer = clientID ∧ b.bidPrice = 0 ∧
                  b.hiddenCommit = hashBid shake clientID price salt then
                { b with bidPrice := price }
              else b) } := by
    simp [Contract.OpenBid, hp, not_lt.mpr hs]
  refine ⟨_, hEq, rfl, ?_⟩
  intro i bid hget hbuyer hhidden hcommit
  simp only [List.get?_map, hget, Option.map_some']
  rw [if_pos ⟨hbuyer, hhidden, hcommit⟩]

/-! Concrete data used by the witnesses and counterexamples: a seller, three
bidders (identified by distinct one-byte certificates), a 64-byte dummy
commitment, and the two scenario auctions of the repository's test suite. -/

def certS : List Nat := [0]

def certA : List Nat := [1]

def certB : List Nat := [2]

def certC : List Nat := [3]

def commit64 : List Nat := List.replicate 64 9

def salt64 : List Nat := List.replicate 64 5

/-- A SHAKE stand-in for witnesses: a concrete function on byte strings. -/
def shakeW : List Nat → List Nat := fun _ => commit64

/-- Tie scenario: two bidders at 40 and one at 20, all revealed. -/
def tieAuction : Auction :=
  { name := "tie", seller := certS, status := .Closed, directBuyPrice := 0
    bids := [{ buyer := certA, bidPrice := 40, hiddenCommit := commit64 },
             { buyer := certB, bidPrice := 40, hiddenCommit := commit64 },
             { buyer := certC, bidPrice := 20, hiddenCommit := commit64 }]
    winner := none, hammerPrice := 0 }

def tiePairsAB : List (Nat × List Nat) := [(40, certA), (40, certB), (20, certC)]

def tiePairsBA : List (Nat × List Nat) := [(40, certB), (40, certA), (20, certC)]

/-- Vickrey scenario of the test suite: bids 10, 40, 20, all revealed. -/
def vickreyAuction : Auction :=
  { name := "v", seller := certS, status := .Closed, directBuyPrice := 1000
    bids := [{ buyer := certA, bidPrice := 10, hiddenCommit := commit64 },
             { buyer := certB, bidPrice := 40, hiddenCommit := commit64 },
             { buyer := certC, bidPrice := 20, hiddenCommit := commit64 }]
    winner := none, hammerPrice := 0 }

def vickreyPairs : List (Nat × List Nat) :=
  [(40, certB), (20, certC), (10, certA)]

/-- An auction with one still-hidden bid. -/
def hiddenBidAuction : Auction :=
  { name := "h", seller := certS, status := .Closed, directBuyPrice := 1000
    bids := [{ buyer := certA, bidPrice := 0, hiddenCommit := commit64 }]
    winner := none, hammerPrice := 0 }

/-- An auction with no bids at all. -/
def emptyAuction : Auction :=
  { name := "e", seller := certS, status := .Open, directBuyPrice := 0
    bids := [], winner := none, hammerPrice := 0 }

/-- C4 witness: ending the hidden-bid auction as the seller fails. -/
theorem C4_witness :
    (hiddenBidAuction.seller = certS ∧ hiddenBidAuction.status ≠ .Ended ∧
      ∃ bid ∈ hiddenBidAuction.bids, bid.bidPrice = 0) ∧
    Contract.EndAuction certS hiddenBidAuction [] 0 =
      .error "cannot end auction, because not all bids are revealed yet" :=
  ⟨⟨rfl, by decide, by decide⟩,
   C4_endAuction_unrevealed_fails certS hiddenBidAuction [] 0 rfl (by decide)
     (by decide)⟩

/-- C5 witness: a direct buy at the direct-buy price on the hidden-bid
auction succeeds with the caller as winner, and fails once ended. -/
theorem C5_witness :
    Contract.DirectBuy certB hiddenBidAuction 1000 =
      .ok ({ hiddenBidAuction with
              hammerPrice := 1000
              winner := some certB
              status := .Ended },
           { winner := some certB, directBuy := true, hammerPrice := 1000 }) ∧
    ∃ e, Contract.DirectBuy certB { hiddenBidAuction with status := .Ended }
      1000 = .error e :=
  ⟨(C5_directBuy certB hiddenBidAuction 1000).1 (by decide) (by decide)
     (by decide),
   (C5_directBuy certB { hiddenBidAuction with status := .Ended } 1000).2
     (Or.inl rfl)⟩

/-- C8 witness: ending the bid-less auction succeeds with no winner. -/
theorem C8_witness :
    Contract.EndAuction certS emptyAuction [] 0 =
      .ok ({ emptyAuction with
              hammerPrice := 0
              winner := none
              status := .Ended },
           some { winner := none, directBuy := false, hammerPrice := 0 }) :=
  C8_endAuction_no_bids certS emptyAuction [] 0 rfl (by decide) rfl
    (by decide)

/-- C6 witness: a matching reveal on the hidden-bid auction updates exactly
that bid, and a zero price is rejected. -/
theorem C6_witness :
    (∃ a', Contract.OpenBid shakeW certA hiddenBidAuction 5 salt64 = .ok a' ∧
      a'.name = hiddenBidAuction.name ∧ a'.seller = hiddenBidAuction.seller ∧
      a'.status = hiddenBidAuction.status ∧
      a'.directBuyPrice = hiddenBidAuction.directBuyPrice ∧
      a'.winner = hiddenBidAuction.winner ∧
      a'.hammerPrice = hiddenBidAuction.hammerPrice ∧
      a'.bids.length = hiddenBidAuction.bids.length ∧
      (∀ i bid, hiddenBidAuction.bids.get? i = some bid →
        a'.bids.get? i = some (
          if bid.buyer = certA ∧ bid.bidPrice = 0 ∧
              bid.hiddenCommit = hashBid shakeW certA 5 salt64 then
            { bid with bidPrice := 5 }
          else bid)) ∧
      ((∀ bid ∈ hiddenBidAuction.bids, ¬(bid.buyer = certA ∧
          bid.bidPrice = 0 ∧
          bid.hiddenCommit = hashBid shakeW certA 5 salt64)) →
        a' = hiddenBidAuction)) ∧
    ∃ e, Contract.OpenBid shakeW certA hiddenBidAuction 0 salt64 = .error e :=
  ⟨(C6_openBid_validation shakeW certA hiddenBidAuction 5 salt64).2
     (by decide) (by decide),
   (C6_openBid_validation shakeW certA hiddenBidAuction 0 salt64).1
     (Or.inl rfl)⟩

/-- C7 witness: the hidden bid committed with `shakeW` on bidder A's
certificate is revealed by the matching `OpenBid`. -/
theorem C7_witness :
    ∃ a', Contract.OpenBid shakeW certA hiddenBidAuction 5 salt64 = .ok a' ∧
      a'.bids.get? 0 = some { buyer := certA, bidPrice := 5
                              hiddenCommit := commit64 } :=
  C7_commit_reveal_roundtrip shakeW certA hiddenBidAuction 5 salt64 0
    { buyer := certA, bidPrice := 0, hiddenCommit := commit64 }
    (by decide) (by decide) rfl rfl rfl (by decide)

/-- C9 witness: the reveal succeeds on the hidden-bid auction in every
status. -/
theorem C9_witness :
    (5 ≠ 0) ∧ 64 ≤ salt64.length ∧
    ∀ st : AuctionStatus, ∃ a',
      Contract.OpenBid shakeW certA { hiddenBidAuction with status := st } 5
        salt64 = .ok a' ∧
      a'.status = st ∧
      ∀ i bid, hiddenBidAuction.bids.get? i = some bid →
        bid.buyer = certA → bid.bidPrice = 0 →
        bid.hiddenCommit = hashBid shakeW certA 5 salt64 →
        a'.bids.get? i = some { bid with bidPrice := 5 } :=
  ⟨by decide, by decide,
   C9_openBid_ignores_status shakeW certA hiddenBidAuction 5 salt64
     (by decide) (by decide)⟩

/-- The head of any sorted arrangement of the deduplicated entries carries
the highest per-bidder price. -/
theorem sorted_perm_head_max (bids : List Bid) (p0 : Nat × List Nat)
    (tl : List (Nat × List Nat))
    (hPerm : (p0 :: tl).Perm (entriesOf bids))
    (hSorted : sortedDesc (p0 :: tl)) :
    p0.1 = maxPriceOf bids := by
  have hMapPerm : ((p0 :: tl).map Prod.fst).Perm
      ((entriesOf bids).map Prod.fst) := hPerm.map _
  simp only [maxPriceOf]
  refine le_antisymm ?_ (maxD_le ?_)
  · exact le_maxD (hMapPerm.mem_iff.mp
      (List.mem_map_of_mem _ (List.mem_cons_self _ _)))
  · intro q hq
    obtain ⟨x, hx, rfl⟩ := List.mem_map.mp (hMapPerm.mem_iff.mpr hq)
    exact sortedDesc_head_le hSorted x hx

/-- The element drawn at any index below `numberOfCandidates` is an element
of the list and is tied with the head price. -/
theorem candidate_getD (p0 : Nat × List Nat) (tl : List (Nat × List Nat))
    (randIdx : Nat) (hSorted : sortedDesc (p0 :: tl))
    (hRand : randIdx < numberOfCandidates (p0 :: tl)) :
    ∃ x, (p0 :: tl).getD randIdx (0, []) = x ∧ x ∈ p0 :: tl ∧ x.1 = p0.1 := by
  simp only [numberOfCandidates] at hRand
  have hgetTW : ((p0 :: tl).takeWhile
      (fun x => decide (p0.1 ≤ x.1))).get? randIdx =
      some (((p0 :: tl).takeWhile (fun x => decide (p0.1 ≤ x.1))).get
        ⟨randIdx, hRand⟩) := List.get?_eq_get hRand
  obtain ⟨hgl, hfx⟩ := takeWhile_get? _ _ _ _ hgetTW
  obtain ⟨hlt, hget⟩ := List.get?_eq_some.mp hgl
  refine ⟨_, ?_, List.get?_mem hgl, le_antisymm
    (sortedDesc_head_le hSorted _ (List.get?_mem hgl))
    (of_decide_eq_true hfx)⟩
  rw [List.getD_eq_get _ _ hlt, hget]

/-- A predicate holding at the head and at a member of the tail is counted
at least twice. -/
theorem countP_two (p : (Nat × List Nat) → Bool) (p0 q : Nat × List Nat)
    (tl : List (Nat × List Nat)) (hp0 : p p0 = true) (hq : q ∈ tl)
    (hpq : p q = true) : 2 ≤ (p0 :: tl).countP p := by
  rw [List.countP_cons, if_pos hp0]
  have h1 : 0 < tl.countP p := List.countP_pos.mpr ⟨q, hq, hpq⟩
  omega

/-- In a sorted-descending list with at least two elements, the second
element is the maximum of the tail prices. -/
theorem sorted_second_max (p0 p1 : Nat × List Nat)
    (rest : List (Nat × List Nat)) (hSorted : sortedDesc (p0 :: p1 :: rest)) :
    maxD ((p1 :: rest).map Prod.fst) = p1.1 := by
  rw [List.map_cons]
  apply maxD_cons_of_le
  intro q hq
  obtain ⟨x, hx, rfl⟩ := List.mem_map.mp hq
  exact (List.pairwise_cons.mp (List.pairwise_cons.mp hSorted).2).1 x hx

/-- Evaluation of `EndAuction` on a sorted slice with at least two distinct
bidders: the hammer price is the second entry's price and the winner is the
buyer at the random index. -/
theorem endAuction_ok_two (clientID : List Nat) (a : Auction)
    (p0 p1 : Nat × List Nat) (rest : List (Nat × List Nat)) (randIdx : Nat)
    (hSeller : a.seller = clientID) (hSt : a.status ≠ .Ended)
    (hAny : (a.bids.any fun bid => decide (bid.bidPrice = 0)) = false) :
    Contract.EndAuction clientID a (p0 :: p1 :: rest) randIdx =
      .ok ({ a with
              hammerPrice := p1.1
              winner := some ((p0 :: p1 :: rest).getD randIdx (0, [])).2
              status := .Ended },
           some { winner := some ((p0 :: p1 :: rest).getD randIdx (0, [])).2
                  directBuy := false
                  hammerPrice := p1.1 }) := by
  unfold Contract.EndAuction
  rw [if_neg (not_not_intro hSeller), if_neg hSt,
    if_neg (by simp [hAny] : ¬(a.bids.any fun bid =>
      decide (bid.bidPrice = 0)) = true),
    if_neg (by simp : ¬(p0 :: p1 :: rest).isEmpty = true)]
  simp only [List.length_cons, List.getD_cons_succ, List.getD_cons_zero]
  rw [if_pos (by omega : 1 < rest.length + 1 + 1)]

/-- Evaluation of `EndAuction` on a one-entry sorted slice: the hammer
price is that single bidder's own price. -/
theorem endAuction_ok_one (clientID : List Nat) (a : Auction)
    (p0 : Nat × List Nat) (randIdx : Nat)
    (hSeller : a.seller = clientID) (hSt : a.status ≠ .Ended)
    (hAny : (a.bids.any fun bid => decide (bid.bidPrice = 0)) = false) :
    Contract.EndAuction clientID a [p0] randIdx =
      .ok ({ a with
              hammerPrice := p0.1
              winner := some ([p0].getD randIdx (0, [])).2
              status := .Ended },
           some { winner := some ([p0].getD randIdx (0, [])).2
                  directBuy := false
                  hammerPrice := p0.1 }) := by
  unfold Contract.EndAuction
  rw [if_neg (not_not_intro hSeller), if_neg hSt,
    if_neg (by simp [hAny] : ¬(a.bids.any fun bid =>
      decide (bid.bidPrice = 0)) = true),
    if_neg (by simp : ¬([p0] : List (Nat × List Nat)).isEmpty = true)]
  simp only [List.length_cons, List.length_nil, List.headD_cons]
  rw [if_neg (by omega : ¬1 < 0 + 1)]

/-- C1 (as stated, counterexample): with revealed bids 40, 40, 20 by three
distinct bidders, one admissible execution of `EndAuction` ends with a
hammer price of 40 — the tied price itself — not the price 20 immediately
below the tied group as the claim demands. -/
theorem C1_counterexample :
    admissibleSort tieAuction.bids tiePairsAB ∧
    0 < numberOfCandidates tiePairsAB ∧
    ∃ a1 r1,
      Contract.EndAuction certS tieAuction tiePairsAB 0 = .ok (a1, some r1) ∧
      a1.status = .Ended ∧ a1.winner = some certA ∧
      a1.hammerPrice = 40 ∧ a1.hammerPrice ≠ 20 :=
  ⟨by decide, by decide, _, _, rfl, rfl, rfl, rfl, by decide⟩

/-- C2 (failing input): on the tie auction, two admissible executions of
`EndAuction` with the same caller, arguments and random index 0 — differing
only in the unspecified Go map iteration order that feeds the non-stable
sort — produce different winners. -/
theorem C2_replicas_can_disagree :
    admissibleSort tieAuction.bids tiePairsAB ∧
    admissibleSort tieAuction.bids tiePairsBA ∧
    0 < numberOfCandidates tiePairsAB ∧
    0 < numberOfCandidates tiePairsBA ∧
    ∃ a1 a2 r1 r2,
      Contract.EndAuction certS tieAuction tiePairsAB 0 = .ok (a1, r1) ∧
      Contract.EndAuction certS tieAuction tiePairsBA 0 = .ok (a2, r2) ∧
      a1.winner = some certA ∧ a2.winner = some certB ∧
      a1.winner ≠ a2.winner :=
  ⟨by decide, by decide, by decide, by decide,
   _, _, _, _, rfl, rfl, rfl, rfl, by decide⟩

/-- A fully revealed bid list fails the hidden-bid scan of `EndAuction`. -/
theorem revealed_any_false {bids : List Bid}
    (hRevealed : ∀ bid ∈ bids, bid.bidPrice ≠ 0) :
    (bids.any fun bid => decide (bid.bidPrice = 0)) = false := by
  cases hb : bids.any fun bid => decide (bid.bidPrice = 0) with
  | false => rfl
  | true =>
    obtain ⟨bid, hmem, hdec⟩ := List.any_eq_true.mp hb
    exact absurd (of_decide_eq_true hdec) (hRevealed bid hmem)

/-- C1 (amended): in an auction whose revealed per-bidder maxima have at
least two bidders tied at the top and at least one strictly lower bidder,
`EndAuction` called by the seller makes one of the tied bidders the winner,
and the hammer price is the tied top price itself (the second entry of the
descending sort), not the price below the tied group. -/
theorem C1_tie_winner_and_hammer (clientID : List Nat) (a : Auction)
    (pairs : List (Nat × List Nat)) (randIdx : Nat)
    (hSeller : a.seller = clientID) (hSt : a.status ≠ .Ended)
    (hRevealed : ∀ bid ∈ a.bids, bid.bidPrice ≠ 0)
    (hAdm : admissibleSort a.bids pairs)
    (hTie : 2 ≤ (entriesOf a.bids).countP
        (fun e => decide (e.1 = maxPriceOf a.bids)))
    (_hLower : ∃ e ∈ entriesOf a.bids, e.1 < maxPriceOf a.bids)
    (hRand : randIdx < numberOfCandidates pairs) :
    ∃ w : List Nat,
      Contract.EndAuction clientID a pairs randIdx =
        .ok ({ a with
                hammerPrice := maxPriceOf a.bids
                winner := some w
                status := .Ended },
             some { winner := some w
                    directBuy := false
                    hammerPrice := maxPriceOf a.bids }) ∧
      (maxPriceOf a.bids, w) ∈ entriesOf a.bids := by
  obtain ⟨hPerm, hSorted⟩ := hAdm
  have hAny := revealed_any_false hRevealed
  set M := maxPriceOf a.bids with hM
  cases pairs with
  | nil =>
    rw [← hPerm.countP_eq] at hTie
    simp [List.countP_nil] at hTie
  | cons p0 tl =>
    have hp0M : p0.1 = M := sorted_perm_head_max a.bids p0 tl hPerm hSorted
    have hcnt2 : 2 ≤ ((p0 :: tl).countP fun e => decide (e.1 = M)) := by
      rw [hPerm.countP_eq]
      exact hTie
    have htl : ∃ q ∈ tl, q.1 = M := by
      rw [List.countP_cons, if_pos (by simp [hp0M])] at hcnt2
      have hpos : 0 < tl.countP fun e => decide (e.1 = M) := by omega
      obtain ⟨q, hq, hdq⟩ := List.countP_pos.mp hpos
      exact ⟨q, hq, of_decide_eq_true hdq⟩
    obtain ⟨q, hqtl, hqM⟩ := htl
    cases tl with
    | nil => cases hqtl
    | cons p1 rest =>
      have hp1M : p1.1 = M := by
        have h1 : p1.1 ≤ M := by
          rw [← hp0M]
          exact sortedDesc_head_le hSorted p1
            (List.mem_cons_of_mem _ (List.mem_cons_self _ _))
        have h2 : M ≤ p1.1 := by
          rcases List.mem_cons.mp hqtl with h | hqrest
          · rw [← hqM, h]
          · rw [← hqM]
            exact (List.pairwise_cons.mp (List.pairwise_cons.mp hSorted).2).1
              q hqrest
        exact le_antisymm h1 h2
      obtain ⟨x, hgetD, hxmem, hx1⟩ :=
        candidate_getD p0 (p1 :: rest) randIdx hSorted hRand
      refine ⟨x.2, ?_, ?_⟩
      · have hok := endAuction_ok_two clientID a p0 p1 rest randIdx hSeller
          hSt hAny
        rw [hgetD, hp1M] at hok
        exact hok
      · have hx : x ∈ entriesOf a.bids := hPerm.subset hxmem
        have hxM : x.1 = M := hx1.trans hp0M
        rw [← hxM]
        exact hx

/-- C3: with a unique top bidder among the revealed per-bidder maxima,
`EndAuction` called by the seller makes that bidder the winner; the hammer
price is the second-highest distinct bidder's price (the maximum after
removing one copy of the top price), or the top bidder's own price when
they are the only bidder. -/
theorem C3_unique_top_vickrey (clientID : List Nat) (a : Auction)
    (pairs : List (Nat × List Nat)) (randIdx : Nat)
    (hSeller : a.seller = clientID) (hSt : a.status ≠ .Ended)
    (hRevealed : ∀ bid ∈ a.bids, bid.bidPrice ≠ 0)
    (hAdm : admissibleSort a.bids pairs)
    (hNonempty : entriesOf a.bids ≠ [])
    (hUnique : ((entriesOf a.bids).countP
        (fun e => decide (e.1 = maxPriceOf a.bids))) = 1)
    (hRand : randIdx < numberOfCandidates pairs) :
    ∃ w hammer,
      Contract.EndAuction clientID a pairs randIdx =
        .ok ({ a with
                hammerPrice := hammer
                winner := some w
                status := .Ended },
             some { winner := some w
                    directBuy := false
                    hammerPrice := hammer }) ∧
      (maxPriceOf a.bids, w) ∈ entriesOf a.bids ∧
      (∀ e ∈ entriesOf a.bids, e.1 = maxPriceOf a.bids → e.2 = w) ∧
      ((entriesOf a.bids).length = 1 → hammer = maxPriceOf a.bids) ∧
      (2 ≤ (entriesOf a.bids).length →
        hammer = maxD (((entriesOf a.bids).map Prod.fst).erase
          (maxPriceOf a.bids))) := by
  obtain ⟨hPerm, hSorted⟩ := hAdm
  have hAny := revealed_any_false hRevealed
  set M := maxPriceOf a.bids with hM
  cases pairs with
  | nil => exact absurd hPerm.symm.eq_nil.symm (Ne.symm hNonempty)
  | cons p0 tl =>
    have hp0M : p0.1 = M := sorted_perm_head_max a.bids p0 tl hPerm hSorted
    obtain ⟨x, hgetD, hxmem, hx1⟩ := candidate_getD p0 tl randIdx hSorted hRand
    have hcnt : ((p0 :: tl).countP fun e => decide (e.1 = M)) = 1 := by
      rw [hPerm.countP_eq]
      exact hUnique
    have hnotl : ∀ q ∈ tl, q.1 ≠ M := by
      intro q hq hqM
      have h2 := countP_two (fun e => decide (e.1 = M)) p0 q tl
        (by simp [hp0M]) hq (by simp [hqM])
      omega
    have hxp0 : x = p0 := by
      rcases List.mem_cons.mp hxmem with h | h
      · exact h
      · exact absurd (hx1.trans hp0M) (hnotl x h)
    have hUniq2 : ∀ e ∈ entriesOf a.bids, e.1 = M → e.2 = p0.2 := by
      intro e he heM
      rcases List.mem_cons.mp (hPerm.mem_iff.mpr he) with h | h
      · rw [h]
      · exact absurd heM (hnotl e h)
    have hp0mem : (M, p0.2) ∈ entriesOf a.bids := by
      have hmem : p0 ∈ entriesOf a.bids :=
        hPerm.subset (List.mem_cons_self _ _)
      rw [← hp0M]
      exact hmem
    have hLen : (p0 :: tl).length = (entriesOf a.bids).length :=
      hPerm.length_eq
    cases tl with
    | nil =>
      refine ⟨p0.2, p0.1, ?_, ?_, hUniq2, fun _ => hp0M, ?_⟩
      · have hok := endAuction_ok_one clientID a p0 randIdx hSeller hSt hAny
        rw [hgetD, hxp0] at hok
        exact hok
      · exact hp0mem
      · intro h2
        rw [← hLen] at h2
        simp at h2
    | cons p1 rest =>
      refine ⟨p0.2, p1.1, ?_, hp0mem, hUniq2, ?_, ?_⟩
      · have hok := endAuction_ok_two clientID a p0 p1 rest randIdx hSeller
          hSt hAny
        rw [hgetD, hxp0] at hok
        exact hok
      · intro h1
        rw [← hLen] at h1
        simp at h1
      · intro _
        have hmapPerm : ((p0 :: p1 :: rest).map Prod.fst).Perm
            ((entriesOf a.bids).map Prod.fst) := hPerm.map _
        have hErasePerm := hmapPerm.erase M
        have hEraseHead : ((p0 :: p1 :: rest).map Prod.fst).erase M =
            (p1 :: rest).map Prod.fst := by
          rw [List.map_cons, hp0M, List.erase_cons_head]
        calc p1.1 = maxD ((p1 :: rest).map Prod.fst) :=
              (sorted_second_max p0 p1 rest hSorted).symm
          _ = maxD (((p0 :: p1 :: rest).map Prod.fst).erase M) := by
              rw [hEraseHead]
          _ = maxD (((entriesOf a.bids).map Prod.fst).erase M) :=
              maxD_perm hErasePerm

/-- C1 witness: the tie auction (40, 40, 20) with the sorted arrangement
listing bidder A first and random index 1 satisfies every hypothesis, and
the amended conclusion follows. -/
theorem C1_witness :
    (tieAuction.seller = certS ∧ tieAuction.status ≠ .Ended ∧
      (∀ bid ∈ tieAuction.bids, bid.bidPrice ≠ 0) ∧
      admissibleSort tieAuction.bids tiePairsAB ∧
      2 ≤ (entriesOf tieAuction.bids).countP
        (fun e => decide (e.1 = maxPriceOf tieAuction.bids)) ∧
      (∃ e ∈ entriesOf tieAuction.bids,
        e.1 < maxPriceOf tieAuction.bids) ∧
      1 < numberOfCandidates tiePairsAB) ∧
    ∃ w : List Nat,
      Contract.EndAuction certS tieAuction tiePairsAB 1 =
        .ok ({ tieAuction with
                hammerPrice := maxPriceOf tieAuction.bids
                winner := some w
                status := .Ended },
             some { winner := some w
                    directBuy := false
                    hammerPrice := maxPriceOf tieAuction.bids }) ∧
      (maxPriceOf tieAuction.bids, w) ∈ entriesOf tieAuction.bids :=
  ⟨⟨rfl, by decide, by decide, by decide, by decide, by decide, by decide⟩,
   C1_tie_winner_and_hammer certS tieAuction tiePairsAB 1 rfl (by decide)
     (by decide) (by decide) (by decide) (by decide) (by decide)⟩

/-- C3 witness: the Vickrey auction of the test suite (10, 40, 20) with its
unique sorted arrangement and random index 0 satisfies every hypothesis,
and the conclusion follows. -/
theorem C3_witness :
    (vickreyAuction.seller = certS ∧ vickreyAuction.status ≠ .Ended ∧
      (∀ bid ∈ vickreyAuction.bids, bid.bidPrice ≠ 0) ∧
      admissibleSort vickreyAuction.bids vickreyPairs ∧
      entriesOf vickreyAuction.bids ≠ [] ∧
      (entriesOf vickreyAuction.bids).countP
        (fun e => decide (e.1 = maxPriceOf vickreyAuction.bids)) = 1 ∧
      0 < numberOfCandidates vickreyPairs) ∧
    ∃ w hammer,
      Contract.EndAuction certS vickreyAuction vickreyPairs 0 =
        .ok ({ vickreyAuction with
                hammerPrice := hammer
                winner := some w
                status := .Ended },
             some { winner := some w
                    directBuy := false
                    hammerPrice := hammer }) ∧
      (maxPriceOf vickreyAuction.bids, w) ∈ entriesOf vickreyAuction.bids ∧
      (∀ e ∈ entriesOf vickreyAuction.bids,
        e.1 = maxPriceOf vickreyAuction.bids → e.2 = w) ∧
      ((entriesOf vickreyAuction.bids).length = 1 →
        hammer = maxPriceOf vickreyAuction.bids) ∧
      (2 ≤ (entriesOf vickreyAuction.bids).length →
        hammer = maxD (((entriesOf vickreyAuction.bids).map Prod.fst).erase
          (maxPriceOf vickreyAuction.bids))) :=
  ⟨⟨rfl, by decide, by decide, by decide, by decide, by decide, by decide⟩,
   C3_unique_top_vickrey certS vickreyAuction vickreyPairs 0 rfl (by decide)
     (by decide) (by decide) (by decide) (by decide) (by decide)⟩

/-- C10: every operation on an auction preserves the bid ledger: no record
is removed, the buyer and commitment of every existing record are
unchanged, a revealed price (`bidPrice ≠ 0`) is never rewritten, and any
appended record starts hidden (`bidPrice = 0`). -/
theorem C10_bids_append_only :
    ∀ (clientID : List Nat) (a : Auction) (op : Op) (a' : Auction),
      applyOp clientID a op = .ok a' → bidsPreserved a.bids a'.bids := by
  intro clientID a op a' h
  cases op with
  | bid c =>
    simp only [applyOp, Contract.Bid] at h
    split at h
    · exact Except.noConfusion h
    · split at h
      · exact Except.noConfusion h
      · cases h
        refine ⟨by simp, ?_, ?_⟩
        · intro i ob nb h1 h2
          obtain ⟨hlt, _⟩ := List.get?_eq_some.mp h1
          rw [List.get?_append hlt, h1] at h2
          cases h2
          exact ⟨rfl, rfl, fun _ => rfl⟩
        · intro i hi nb h2
          rw [List.get?_append_right hi] at h2
          rcases hk : i - a.bids.length with _ | k
          · rw [hk] at h2
            cases h2
            rfl
          · rw [hk] at h2
            exact Option.noConfusion h2
  | openBid shake p s =>
    simp only [applyOp, Contract.OpenBid] at h
    split at h
    · exact Except.noConfusion h
    · split at h
      · exact Except.noConfusion h
      · cases h
        refine ⟨by simp, ?_, ?_⟩
        · intro i ob nb h1 h2
          rw [List.get?_map, h1, Option.map_some'] at h2
          cases h2
          split
          · rename_i hcond
            exact ⟨rfl, rfl, fun hne => absurd hcond.2.1 hne⟩
          · exact ⟨rfl, rfl, fun _ => rfl⟩
        · intro i hi nb h2
          rw [List.get?_eq_none.mpr (by simpa using hi)] at h2
          exact Option.noConfusion h2
  | closeAuction =>
    simp only [applyOp, Contract.CloseAuction] at h
    split at h
    · exact Except.noConfusion h
    · split at h
      · cases h
        exact bidsPreserved_refl _
      · cases h
        exact bidsPreserved_refl _
  | endAuction pairs r =>
    simp only [applyOp, Contract.EndAuction] at h
    split at h
    · exact Except.noConfusion h
    · split at h
      · cases Except.ok.inj h
        exact bidsPreserved_refl _
      · split at h
        · exact Except.noConfusion h
        · split at h
          · cases Except.ok.inj h
            exact bidsPreserved_refl _
          · cases Except.ok.inj h
            exact bidsPreserved_refl _
  | directBuy p =>
    simp only [applyOp, Contract.DirectBuy] at h
    split at h
    · exact Except.noConfusion h
    · split at h
      · exact Except.noConfusion h
      · split at h
        · exact Except.noConfusion h
        · cases Except.ok.inj h
          exact bidsPreserved_refl _

/-- C10 witness: submitting a hidden bid on the empty auction appends one
hidden record and preserves the (empty) previous ledger. -/
theorem C10_witness :
    applyOp certB emptyAuction (.bid commit64) =
      .ok { emptyAuction with
            bids := [{ buyer := certB, bidPrice := 0
                       hiddenCommit := commit64 }] } ∧
    bidsPreserved emptyAuction.bids
      [{ buyer := certB, bidPrice := 0, hiddenCommit := commit64 }] :=
  ⟨rfl, C10_bids_append_only certB emptyAuction (.bid commit64)
    { emptyAuction with
      bids := [{ buyer := certB, bidPrice := 0, hiddenCommit := commit64 }] }
    rfl⟩

end FabricAuction
